import Mathlib

/-!
Verification of the three-earth Tile LOD Cache Engine.

Shallow embedding of the tile engine of the `three-earth` repository:

* quantized-mesh codecs (`src/globe/cesium-terrain-provider.ts`):
  `zigZagDeltaDecode`, `highWaterMarkDecode`;
* coordinate math (`src/utils/geo.ts`): `lonLatToTile`;
* quadtree tile selection (`src/globe/tile-manager.ts`): `getVisibleTiles`;
* texture cache trimming, the bounded-concurrency load queue and the
  pending-request de-duplication of `TileManager`, modelled as an explicit
  state machine over the fields of the class.

Machine integers are modelled as `Nat`/`Int` with explicit `% 2^16` /
`% 2^32` where JS typed-array stores wrap; JS `number` accumulators that
stay integral are modelled as exact `Int`.
-/

namespace ThreeEarth

/-! ## Quantized-mesh codecs (`cesium-terrain-provider.ts`)

`zigZagDeltaDecode` (lines 148-160): for each `value` of the `Uint16Array`,
`delta = (value >> 1) ^ (-(value & 1))` over JS int32 arithmetic; the
accumulator is a plain JS number (exact integer here); the emitted element
is stored into a `Uint16Array`, i.e. taken mod 2^16. -/

/-- Value of `(value >> 1) ^ (-(value & 1))` for `0 ≤ value < 2^16`: the left operand
is the nonnegative `value / 2`, the right operand is `0` (value even) or
`-1` (value odd); int32 xor satisfies `x ^ 0 = x` and `x ^ -1 = -x - 1`. -/
def zigZagDecodeVal (value : Nat) : Int :=
  if value % 2 = 0 then ((value / 2 : Nat) : Int) else -((value / 2 : Nat) : Int) - 1

/-- Loop of `zigZagDeltaDecode` with explicit accumulator state. -/
def zigZagDeltaDecodeGo (accumulator : Int) : List Nat → List Nat
  | [] => []
  | value :: rest =>
    ((accumulator + zigZagDecodeVal value) % 65536).toNat ::
      zigZagDeltaDecodeGo (accumulator + zigZagDecodeVal value) rest

/-- Model of `zigZagDeltaDecode` of `cesium-terrain-provider.ts` on the list of
`Uint16` values of the `encoded` array. -/
def zigZagDeltaDecode (encoded : List Nat) : List Nat :=
  zigZagDeltaDecodeGo 0 encoded

/-- Modelled from the spec: the signed 16-bit representative of a residue
`n ∈ [0, 2^16)`, used by the reference encoder for its delta. -/
def toSigned16 (n : Nat) : Int :=
  if n < 32768 then (n : Int) else (n : Int) - 65536

/-- Modelled from the spec: standard zig-zag map of a signed 16-bit delta
(`d ≥ 0 ↦ 2d`, `d < 0 ↦ -2d - 1`), as computed by the Cesium reference
encoder `((d << 1) ^ (d >> 15)) & 0xffff` on `d ∈ [-2^15, 2^15)`. -/
def zigZagEncodeVal (d : Int) : Nat :=
  (if 0 ≤ d then 2 * d else -2 * d - 1).toNat

/-- Loop of the reference zig-zag delta encoder, carrying the previous
output value. -/
def zigZagDeltaEncodeGo (last : Nat) : List Nat → List Nat
  | [] => []
  | v :: rest =>
    zigZagEncodeVal (toSigned16 ((((v : Int) - (last : Int)) % 65536).toNat)) ::
      zigZagDeltaEncodeGo v rest

/-- Modelled from the spec: "the corresponding reference zig-zag delta
encoder over uint16 arithmetic": the delta of consecutive uint16 values is
taken mod 2^16, centred to the signed 16-bit range, then zig-zag coded. -/
def zigZagDeltaEncode (values : List Nat) : List Nat :=
  zigZagDeltaEncodeGo 0 values

/-- Loop of `highWaterMarkDecode` (lines 165-178): `decoded[i] = highest - code`
stored into a `Uint32Array` (i.e. mod 2^32); `if (code === 0) highest += 1`. -/
def highWaterMarkDecodeGo (highest : Nat) : List Nat → List Nat
  | [] => []
  | code :: rest =>
    (((highest : Int) - (code : Int)) % 4294967296).toNat ::
      highWaterMarkDecodeGo (if code = 0 then highest + 1 else highest) rest

/-- Model of `highWaterMarkDecode` of `cesium-terrain-provider.ts` on the list of
(nonnegative) values of the encoded index array. -/
def highWaterMarkDecode (encoded : List Nat) : List Nat :=
  highWaterMarkDecodeGo 0 encoded

/-- A well-formed high-water-mark stream: every code is at most the running
`highest` (so `highest - code` never underflows). -/
def validHwmStream (highest : Nat) : List Nat → Bool
  | [] => true
  | code :: rest =>
    decide (code ≤ highest) && validHwmStream (if code = 0 then highest + 1 else highest) rest

/-! ## Coordinate math (`src/utils/geo.ts`, `lonLatToTile`, lines 19-28)

```
const n = 2 ** zoom;
const clampedLat = clamp(lat, -85.05112878, 85.05112878);
const x = Math.floor(((lon + 180) / 360) * n);
const y = Math.floor(((1 - Math.log(Math.tan(latRad) + 1 / Math.cos(latRad)) / Math.PI) / 2) * n);
```

The source computes in IEEE doubles.  The steps that round are therefore
abstracted as rational inputs (every double is a rational), and only the
steps that are exact in doubles are modelled as exact `ℚ` arithmetic:

* `lonNorm` is the computed value of `(lon + 180) / 360` — both the
  addition and the division by 360 round.  For example, at
  `lon = 180 - 2^-45` (the largest double below 180) the sum `lon + 180`
  rounds up to exactly `360.0` by tie-to-even, so `lonNorm = 1` there,
  just as at `lon = 180` where the computation is exact;
* `rowNorm` is the computed value of
  `1 - Math.log(Math.tan(latRad) + 1 / Math.cos(latRad)) / Math.PI` for
  the clamped latitude: a transcendental evaluation followed by two
  rounding operations;
* the remaining steps are exact in doubles and modelled exactly:
  dividing by 2 and multiplying by `n = 2 ** zoom` only shift the
  exponent (no rounding happens for the engine's zoom range, which the
  tile manager clamps to at most `MAX_TILE_ZOOM = 22`), and `Math.floor`
  of a double is exact. -/

/-- Model of `lonLatToTile` returning `(x, y, n)`, over the computed
fractions `lonNorm` and `rowNorm` described above. -/
def lonLatToTile (lonNorm rowNorm : ℚ) (zoom : Nat) : Int × Int × Nat :=
  let n : ℚ := 2 ^ zoom
  (Int.floor (lonNorm * n), Int.floor (rowNorm / 2 * n), 2 ^ zoom)

/-! ## Quadtree tile selection (`tile-manager.ts`, `getVisibleTiles`, lines 408-504)

The camera/globe-dependent geometry is deterministic per tile for a fixed
camera state and globe orientation:

* `visible z x y` models `frustum.intersectsSphere(worldSphere)` of the
  tile's cached bounding sphere (the same computation is used both by the
  pre-check `isTilePotentiallyVisible` and by the check at the top of
  `visit`);
* `refine z x y` models `sse > MAX_SCREEN_SPACE_ERROR` for the tile;
* `angle z x y` models `Math.acos(clamp(dir ⬝ viewDir, -1, 1))`.

`visit`'s recursion is bounded by `z < maxLevel`; it is modelled with the
fuel `maxLevel - z`, so that at each node `0 < fuel ↔ z < maxLevel`
(`getVisibleTiles` starts at the root `z = 0` with fuel `maxLevel`). -/

/-- Constant `MIN_TILE_ZOOM` of `constants.ts`. -/
def MIN_TILE_ZOOM : Nat := 3

structure TileCoord where
  z : Nat
  x : Nat
  y : Nat
deriving DecidableEq

/-- entries of the `selected` array: `{ z, x, y, angle }`. -/
structure VisibleTile where
  z : Nat
  x : Nat
  y : Nat
  angle : ℚ
deriving DecidableEq

def tileOf (t : VisibleTile) : TileCoord := ⟨t.z, t.x, t.y⟩

/-- The camera-dependent data of one `getVisibleTiles` call. -/
structure SelectorEnv where
  maxLevel : Nat
  visible : Nat → Nat → Nat → Bool
  refine : Nat → Nat → Nat → Bool
  angle : Nat → Nat → Nat → ℚ

/-- Effect of `selected.push({ z, x, y, angle })`. -/
def selectTile (env : SelectorEnv) (z x y : Nat) : VisibleTile :=
  ⟨z, x, y, env.angle z x y⟩

/-- The `for (const [cx, cy] of children)` loop: accumulator is
`(hasVisibleChild, allVisibleChildrenReady, selected)`; an invisible child
is skipped (`continue`), a visible one is visited and its cover result
and-ed into `allVisibleChildrenReady`. -/
def visitChildren (vis : Nat → Nat → Bool)
    (visitF : Nat → Nat → List VisibleTile → Bool × List VisibleTile) :
    List (Nat × Nat) → Bool × Bool × List VisibleTile → Bool × Bool × List VisibleTile
  | [], acc => acc
  | c :: rest, acc =>
    if vis c.1 c.2 = false then visitChildren vis visitF rest acc
    else
      visitChildren vis visitF rest
        (true, acc.2.1 && (visitF c.1 c.2 acc.2.2).1, (visitF c.1 c.2 acc.2.2).2)

/-- The recursive `visit` closure of `getVisibleTiles`.  Returns
`(covering, selected)`.  `fuel` stands for `maxLevel - z` as explained
above; the refine condition `(mustRefineToMinZoom || sse > MAX) && z < maxLevel`
becomes `(z < MIN_TILE_ZOOM || refine) && 0 < fuel`.  On parent fallback the
source truncates `selected.length = selectionStart` and pushes the parent. -/
def visit (env : SelectorEnv) : Nat → Nat → Nat → Nat → List VisibleTile → Bool × List VisibleTile
  | 0, z, x, y, selected =>
    if env.visible z x y = false then (false, selected)
    else (true, selected ++ [selectTile env z x y])
  | fuel + 1, z, x, y, selected =>
    if env.visible z x y = false then (false, selected)
    else if decide (z < MIN_TILE_ZOOM) || env.refine z x y then
      let res := visitChildren (env.visible (z + 1)) (visit env fuel (z + 1))
        [(x * 2, y * 2), (x * 2 + 1, y * 2), (x * 2, y * 2 + 1), (x * 2 + 1, y * 2 + 1)]
        (false, true, selected)
      if res.1 = false ∨ res.2.1 = false then
        (true, res.2.2.take selected.length ++ [selectTile env z x y])
      else (true, res.2.2)
    else (true, selected ++ [selectTile env z x y])

/-- Comparator of `selected.sort((a, b) => a.angle - b.angle || a.z - b.z)` (stable). -/
def angleOrder (a b : VisibleTile) : Bool :=
  decide (a.angle < b.angle ∨ (a.angle = b.angle ∧ a.z ≤ b.z))

/-- Model of `getVisibleTiles`: run `visit` from the root `(0, 0, 0)`, sort by angle
(then level) and strip to coordinates. -/
def getVisibleTiles (env : SelectorEnv) : List TileCoord :=
  (((visit env env.maxLevel 0 0 0 []).2.mergeSort angleOrder).map tileOf)

/-- Tile `p` is an ancestor-or-self of `c` in the quadtree. -/
def inSubtree (p c : TileCoord) : Prop :=
  p.z ≤ c.z ∧ p.x = c.x / 2 ^ (c.z - p.z) ∧ p.y = c.y / 2 ^ (c.z - p.z)

/-- Tile `a` is a strict ancestor of `b` (the relation of claim C1). -/
def isAncestorOf (a b : TileCoord) : Prop :=
  a.z < b.z ∧ a.x = b.x / 2 ^ (b.z - a.z) ∧ a.y = b.y / 2 ^ (b.z - a.z)

instance (a b : TileCoord) : Decidable (isAncestorOf a b) := by
  unfold isAncestorOf
  infer_instance

/-- Soundness predicate for a `visit` sub-call at level `childZ`: it only
appends tiles, all appended tiles lie in the subtree of the visited node,
and no appended tile is a strict quadtree ancestor of another. -/
def VisitSound (childZ : Nat)
    (visitF : Nat → Nat → List VisibleTile → Bool × List VisibleTile) : Prop :=
  ∀ cx cy sel, ∃ extra, (visitF cx cy sel).2 = sel ++ extra ∧
    (∀ t ∈ extra, inSubtree ⟨childZ, cx, cy⟩ (tileOf t)) ∧
    (∀ t1 ∈ extra, ∀ t2 ∈ extra, ¬ isAncestorOf (tileOf t1) (tileOf t2))

/-! ## TileManager caches and load pipeline (`tile-manager.ts`)

The `Map`s of the class are modelled as association lists in insertion
order (a JS `Map` iterates in insertion order; `touchTextureCache` deletes
and re-inserts to move a key to the end, which is exactly how the source
implements LRU recency).  Textures, decoded terrain payloads and promises
are identified by numeric ids (`nextTextureId`, `nextPromiseId`). -/

/-- Model of `getTileKey` (module-level, line 635). -/
def getTileKey (z x y : Nat) : String :=
  toString z ++ "/" ++ toString x ++ "/" ++ toString y

/-- Semantics of `Map.get` on an insertion-ordered association list. -/
def alookup {α : Type} (k : String) : List (String × α) → Option α
  | [] => none
  | e :: rest => if e.1 = k then some e.2 else alookup k rest

/-- Semantics of `Map.delete` (keys are unique, so deleting the entry of `k` is
filtering it out). -/
def eraseKey {α : Type} (m : List (String × α)) (k : String) : List (String × α) :=
  m.filter fun e => !(e.1 == k)

/-- Semantics of `Map.set`: replace in place if the key is present, else append. -/
def mapSet {α : Type} (m : List (String × α)) (k : String) (v : α) : List (String × α) :=
  match alookup k m with
  | some _ => m.map fun e => if e.1 = k then (k, v) else e
  | none => m ++ [(k, v)]

/-- Model of `touchTextureCache` (lines 612-617): re-insert the entry of `key` at
the end of the map (most recently used). -/
def touchTextureCache {α : Type} (cache : List (String × α)) (key : String) :
    List (String × α) :=
  match alookup key cache with
  | none => cache
  | some tex => (cache.filter fun e => !(e.1 == key)) ++ [(key, tex)]

/-- Loop of `trimTextureCache` (lines 620-629): iterate the cache in
insertion (LRU) order; stop as soon as `size ≤ limit`; skip (keep) entries
whose key is protected (`meshCache.has(key)` in the source); otherwise
dispose and remove the entry.  `kept` holds the already-visited surviving
prefix, so the current size is `kept.length + remaining.length`. -/
def trimTextureCacheGo {α : Type} (isProtected : String → Bool) (limit : Nat)
    (kept : List (String × α)) : List (String × α) → List (String × α)
  | [] => kept
  | e :: rest =>
    if kept.length + (e :: rest).length ≤ limit then kept ++ e :: rest
    else if isProtected e.1 then trimTextureCacheGo isProtected limit (kept ++ [e]) rest
    else trimTextureCacheGo isProtected limit kept rest

/-- Model of `trimTextureCache(limit)` with the protected-key predicate made
explicit (in the source it is `this.meshCache.has(key)`, the keys of the
live meshes of the current needed-set). -/
def trimTextureCache {α : Type} (isProtected : String → Bool) (limit : Nat)
    (cache : List (String × α)) : List (String × α) :=
  trimTextureCacheGo isProtected limit [] cache

/-- Constant `MAX_CONCURRENT_TILE_LOADS` of `constants.ts`. -/
def MAX_CONCURRENT_TILE_LOADS : Nat := 12

/-- Constant `MAX_TEXTURE_CACHE` of `constants.ts`. -/
def MAX_TEXTURE_CACHE : Nat := 320

/-- A queued `doLoad` closure: it captures its tile key and the promise it
will resolve. -/
structure LoadTask where
  key : String
  pid : Nat
deriving DecidableEq

/-- The mutable state of `TileManager` that the load pipeline touches.
`inFlight` holds the started-but-uncompleted network loads (a load is
started when its dequeued `doLoad` task runs `tileLoader.load`);
`resolved` records, per promise id, the value the promise resolved with
(`none` models resolving with `null`).  `meshCache` keeps only the keys of
the live meshes (the pipeline only tests membership), and the
`textureBytes` size-estimate map of the class is omitted: no claim
concerns it and no control flow reads it. -/
structure TMState where
  textureCache : List (String × Nat)
  texturePromises : List (String × Nat)
  meshCache : List String
  pendingTileLoads : List LoadTask
  inFlight : List LoadTask
  activeTileLoads : Nat
  tileRequestCount : Nat
  tileSuccessCount : Nat
  resolved : List (Nat × Option Nat)
  nextPromiseId : Nat
  nextTextureId : Nat
deriving DecidableEq

/-- Loop of `processTileLoadQueue` (lines 161-168): while
`activeTileLoads < MAX_CONCURRENT_TILE_LOADS` and the queue is nonempty,
shift the front task, bump `activeTileLoads`, and run it; running a
`doLoad` task bumps `tileRequestCount` and starts the network load
(`tileLoader.load`), i.e. moves the task into `inFlight`.  One unit of
fuel per dequeued task suffices, so the driver passes the queue length. -/
def processTileLoadQueueGo : Nat → TMState → TMState
  | 0, s => s
  | fuel + 1, s =>
    if s.activeTileLoads < MAX_CONCURRENT_TILE_LOADS then
      match s.pendingTileLoads with
      | [] => s
      | task :: rest =>
        processTileLoadQueueGo fuel
          { s with
            pendingTileLoads := rest
            activeTileLoads := s.activeTileLoads + 1
            tileRequestCount := s.tileRequestCount + 1
            inFlight := s.inFlight ++ [task] }
    else s

/-- Model of `processTileLoadQueue` (lines 161-168). -/
def processTileLoadQueue (s : TMState) : TMState :=
  processTileLoadQueueGo s.pendingTileLoads.length s

/-- What a `loadTileTexture` call hands back to its caller. -/
inductive LoadResult where
  | cachedTexture (tex : Nat)
  | pendingPromise (pid : Nat)
  | newPromise (pid : Nat)
deriving DecidableEq

/-- The synchronous part of `loadTileTexture` (lines 171-226):

* cache hit: touch the LRU entry and return the cached texture;
* a promise for the key is pending: return that same promise, with no
  state change at all (no queueing, no network request, no counters);
* otherwise create a promise, push its `doLoad` onto `pendingTileLoads`,
  run `processTileLoadQueue`, and register the promise under the key. -/
def loadTileTexture (s : TMState) (key : String) : LoadResult × TMState :=
  match alookup key s.textureCache with
  | some tex =>
    (LoadResult.cachedTexture tex, { s with textureCache := touchTextureCache s.textureCache key })
  | none =>
    match alookup key s.texturePromises with
    | some pid => (LoadResult.pendingPromise pid, s)
    | none =>
      let pid := s.nextPromiseId
      let s2 := processTileLoadQueue
        { s with
          nextPromiseId := pid + 1
          pendingTileLoads := s.pendingTileLoads ++ [⟨key, pid⟩] }
      (LoadResult.newPromise pid, { s2 with texturePromises := s2.texturePromises ++ [(key, pid)] })

/-- The success callback of a `tileLoader.load` for `key` (lines 196-209):
`tileSuccessCount += 1`, `activeTileLoads -= 1`, store the texture in the
cache, record its bytes, touch, trim to `MAX_TEXTURE_CACHE`, delete the
pending promise, resolve it with the texture, and refill the queue.  If no
load for `key` is in flight the event cannot occur (no-op). -/
def completeSuccess (s : TMState) (key : String) : TMState :=
  match s.inFlight.find? (fun t => t.key == key) with
  | none => s
  | some task =>
    processTileLoadQueue
      { s with
        tileSuccessCount := s.tileSuccessCount + 1
        activeTileLoads := s.activeTileLoads - 1
        inFlight := s.inFlight.eraseP (fun t => t.key == key)
        textureCache :=
          trimTextureCache (fun k => s.meshCache.contains k) MAX_TEXTURE_CACHE
            (touchTextureCache (mapSet s.textureCache key s.nextTextureId) key)
        texturePromises := eraseKey s.texturePromises key
        resolved := s.resolved ++ [(task.pid, some s.nextTextureId)]
        nextTextureId := s.nextTextureId + 1 }

/-- The error callback (lines 211-217): `activeTileLoads -= 1`, delete the
pending promise, resolve it with `null`, refill the queue.  No counter is
bumped and no exception propagates. -/
def completeFailure (s : TMState) (key : String) : TMState :=
  match s.inFlight.find? (fun t => t.key == key) with
  | none => s
  | some task =>
    processTileLoadQueue
      { s with
        activeTileLoads := s.activeTileLoads - 1
        inFlight := s.inFlight.eraseP (fun t => t.key == key)
        texturePromises := eraseKey s.texturePromises key
        resolved := s.resolved ++ [(task.pid, none)] }

/-- Events of the single-threaded load pipeline: a caller invoking
`loadTileTexture key`, or the network completing an in-flight load. -/
inductive TMEvent where
  | load (key : String)
  | succeed (key : String)
  | fail (key : String)

/-- The state of a fresh `TileManager`. -/
def initialState : TMState :=
  { textureCache := []
    texturePromises := []
    meshCache := []
    pendingTileLoads := []
    inFlight := []
    activeTileLoads := 0
    tileRequestCount := 0
    tileSuccessCount := 0
    resolved := []
    nextPromiseId := 0
    nextTextureId := 0 }

def step (e : TMEvent) (s : TMState) : TMState :=
  match e with
  | TMEvent.load k => (loadTileTexture s k).2
  | TMEvent.succeed k => completeSuccess s k
  | TMEvent.fail k => completeFailure s k

/-- Run a sequence of events from the initial state; `run evs` ranges over
exactly the reachable states of the pipeline. -/
def run (evs : List TMEvent) : TMState :=
  evs.foldl (fun s e => step e s) initialState

/-- Reachability invariant of the load pipeline: the concurrency counter is
capped, it counts exactly the in-flight loads, every success was preceded
by its own request, and a key with a pending promise has no cache entry. -/
def GoodState (s : TMState) : Prop :=
  s.activeTileLoads ≤ MAX_CONCURRENT_TILE_LOADS ∧
  s.inFlight.length = s.activeTileLoads ∧
  s.tileSuccessCount + s.inFlight.length ≤ s.tileRequestCount ∧
  (∀ k v, alookup k s.texturePromises = some v → alookup k s.textureCache = none)

/-! ## Cesium terrain provider (`cesium-terrain-provider.ts`, lines 29-45)

`loadTile` keeps one pending promise per key in `tilePromiseCache`; the
promise chain is `requestAndDecodeTile(...).catch(→ null).finally(delete key)`.
`issuedRequests` records each `requestAndDecodeTile` call (one `fetch`). -/

structure CesiumTerrainProviderState where
  tilePromiseCache : List (String × Nat)
  issuedRequests : List String
  resolved : List (Nat × Option Nat)
  nextPid : Nat
deriving DecidableEq

/-- Model of `CesiumTerrainProvider.loadTile`: return the cached pending promise if
present (no new fetch); else start one fetch-and-decode chain and register
its promise. -/
def CesiumTerrainProvider.loadTile (s : CesiumTerrainProviderState) (key : String) :
    Nat × CesiumTerrainProviderState :=
  match alookup key s.tilePromiseCache with
  | some pid => (pid, s)
  | none =>
    (s.nextPid,
      { tilePromiseCache := s.tilePromiseCache ++ [(key, s.nextPid)]
        issuedRequests := s.issuedRequests ++ [key]
        resolved := s.resolved
        nextPid := s.nextPid + 1 })

/-- Completion of the promise chain for `key`: the `catch` handler maps a
failure to a `null` resolution (`payload = none`), a success resolves with
the decoded tile; the `finally` handler deletes the pending entry in both
cases. -/
def terrainComplete (s : CesiumTerrainProviderState) (key : String) (payload : Option Nat) :
    CesiumTerrainProviderState :=
  match alookup key s.tilePromiseCache with
  | none => s
  | some pid =>
    { s with
      tilePromiseCache := eraseKey s.tilePromiseCache key
      resolved := s.resolved ++ [(pid, payload)] }

/-! ## Lemmas about the association-list map operations -/

theorem alookup_append {α : Type} (k : String) (l1 l2 : List (String × α)) :
    alookup k (l1 ++ l2) =
      match alookup k l1 with
      | some v => some v
      | none => alookup k l2 := by
  induction l1 with
  | nil => simp [alookup]
  | cons e rest ih => by_cases h : e.1 = k <;> simp [alookup, h, ih]

theorem alookup_eq_none_iff {α : Type} (k : String) (m : List (String × α)) :
    alookup k m = none ↔ ∀ e ∈ m, e.1 ≠ k := by
  induction m with
  | nil => simp [alookup]
  | cons e rest ih => by_cases h : e.1 = k <;> simp [alookup, h, ih]

theorem alookup_eraseKey_self {α : Type} (m : List (String × α)) (k : String) :
    alookup k (eraseKey m k) = none := by
  induction m with
  | nil => rfl
  | cons e rest ih =>
    by_cases h : e.1 = k
    · simpa [eraseKey, h] using ih
    · simpa [eraseKey, alookup, h] using ih

theorem alookup_eraseKey_ne {α : Type} (m : List (String × α)) (key k : String)
    (h : k ≠ key) : alookup k (eraseKey m key) = alookup k m := by
  induction m with
  | nil => rfl
  | cons e rest ih =>
    unfold eraseKey at ih ⊢
    rw [List.filter_cons]
    by_cases he : e.1 = key
    · have hek : ¬ e.1 = k := fun hh => h (hh.symm.trans he)
      rw [if_neg (by simp [he]), ih]
      simp [alookup, hek]
    · rw [if_pos (by simp [he])]
      by_cases hk : e.1 = k <;> simp [alookup, hk, ih]

theorem alookup_eraseKey_eq_some {α : Type} (m : List (String × α)) (key k : String)
    (v : α) (h : alookup k (eraseKey m key) = some v) : alookup k m = some v := by
  by_cases hk : k = key
  · rw [hk, alookup_eraseKey_self] at h
    exact absurd h (by simp)
  · rwa [alookup_eraseKey_ne m key k hk] at h

theorem alookup_map_entry_ne {α : Type} (m : List (String × α)) (key k : String) (v : α)
    (h : k ≠ key) :
    alookup k (m.map fun e => if e.1 = key then (key, v) else e) = alookup k m := by
  induction m with
  | nil => rfl
  | cons e rest ih =>
    by_cases he : e.1 = key
    · have hkey : ¬ key = k := fun hh => h hh.symm
      simp [alookup, he, hkey, ih]
    · simp [alookup, he, ih]

theorem alookup_mapSet_ne {α : Type} (m : List (String × α)) (key k : String) (v : α)
    (h : k ≠ key) : alookup k (mapSet m key v) = alookup k m := by
  unfold mapSet
  cases halo : alookup key m with
  | none =>
    have hkey : ¬ key = k := fun hh => h hh.symm
    rw [alookup_append]
    cases h2 : alookup k m with
    | some w => simp
    | none => simp [alookup, hkey]
  | some w => exact alookup_map_entry_ne m key k v h

theorem alookup_touchTextureCache {α : Type} (cache : List (String × α)) (key k : String) :
    alookup k (touchTextureCache cache key) = alookup k cache := by
  unfold touchTextureCache
  cases h : alookup key cache with
  | none => rfl
  | some tex =>
    have herase : (cache.filter fun e => !(e.1 == key)) = eraseKey cache key := rfl
    rw [herase, alookup_append]
    by_cases hk : k = key
    · subst hk
      rw [alookup_eraseKey_self]
      simp [alookup, h]
    · have hkey : ¬ key = k := fun hh => hk hh.symm
      rw [alookup_eraseKey_ne cache key k hk]
      cases h2 : alookup k cache with
      | some w => simp
      | none => simp [alookup, hkey]

theorem alookup_none_of_sublist {α : Type} {m r : List (String × α)} (k : String)
    (hs : r.Sublist m) (h : alookup k m = none) : alookup k r = none := by
  rw [alookup_eq_none_iff] at h ⊢
  exact fun e he => h e (hs.subset he)

/-! ## Lemmas about `trimTextureCache` (claim C4) -/

theorem trimTextureCacheGo_protected {α : Type} (isP : String → Bool) (limit : Nat) :
    ∀ (rest kept : List (String × α)) (e : String × α), isP e.1 = true →
      e ∈ kept ∨ e ∈ rest → e ∈ trimTextureCacheGo isP limit kept rest := by
  intro rest
  induction rest with
  | nil =>
    intro kept e hp hmem
    simp only [trimTextureCacheGo]
    rcases hmem with h | h
    · exact h
    · exact absurd h (List.not_mem_nil e)
  | cons a rest ih =>
    intro kept e hp hmem
    simp only [trimTextureCacheGo]
    by_cases hsize : kept.length + (a :: rest).length ≤ limit
    · simp only [if_pos hsize]
      rcases hmem with h | h
      · exact List.mem_append_left _ h
      · exact List.mem_append_right _ h
    · simp only [if_neg hsize]
      by_cases hprot : isP a.1 = true
      · simp only [if_pos hprot]
        apply ih
        · exact hp
        · rcases hmem with h | h
          · exact Or.inl (List.mem_append_left _ h)
          · rcases List.mem_cons.mp h with rfl | h2
            · exact Or.inl (List.mem_append_right _ (List.mem_singleton_self _))
            · exact Or.inr h2
      · simp only [if_neg hprot]
        apply ih
        · exact hp
        · rcases hmem with h | h
          · exact Or.inl h
          · rcases List.mem_cons.mp h with rfl | h2
            · exact absurd hp hprot
            · exact Or.inr h2

theorem trimTextureCacheGo_sublist {α : Type} (isP : String → Bool) (limit : Nat) :
    ∀ (rest kept : List (String × α)), ∃ r,
      trimTextureCacheGo isP limit kept rest = kept ++ r ∧ r.Sublist rest := by
  intro rest
  induction rest with
  | nil =>
    intro kept
    exact ⟨[], by simp [trimTextureCacheGo], List.Sublist.refl []⟩
  | cons a rest ih =>
    intro kept
    by_cases hsize : kept.length + (a :: rest).length ≤ limit
    · refine ⟨a :: rest, ?_, List.Sublist.refl _⟩
      simp only [trimTextureCacheGo]
      rw [if_pos hsize]
    · by_cases hprot : isP a.1 = true
      · obtain ⟨r, hr, hs⟩ := ih (kept ++ [a])
        refine ⟨a :: r, ?_, List.Sublist.cons₂ a hs⟩
        simp only [trimTextureCacheGo]
        rw [if_neg hsize, if_pos hprot, hr]
        simp
      · obtain ⟨r, hr, hs⟩ := ih kept
        refine ⟨r, ?_, List.Sublist.cons a hs⟩
        simp only [trimTextureCacheGo]
        rw [if_neg hsize, if_neg hprot, hr]

theorem trimTextureCacheGo_size {α : Type} (isP : String → Bool) (limit : Nat) :
    ∀ (rest kept : List (String × α)), (∀ e ∈ kept, isP e.1 = true) →
      (trimTextureCacheGo isP limit kept rest).length ≤ limit ∨
        ∀ e ∈ trimTextureCacheGo isP limit kept rest, isP e.1 = true := by
  intro rest
  induction rest with
  | nil =>
    intro kept hkept
    exact Or.inr (by simpa [trimTextureCacheGo] using hkept)
  | cons a rest ih =>
    intro kept hkept
    simp only [trimTextureCacheGo]
    by_cases hsize : kept.length + (a :: rest).length ≤ limit
    · simp only [if_pos hsize]
      left
      simpa using hsize
    · simp only [if_neg hsize]
      by_cases hprot : isP a.1 = true
      · simp only [if_pos hprot]
        apply ih
        intro e he
        rcases List.mem_append.mp he with h | h
        · exact hkept e h
        · rcases List.mem_singleton.mp h with rfl
          exact hprot
      · simp only [if_neg hprot]
        exact ih kept hkept

theorem trimTextureCache_sublist {α : Type} (isP : String → Bool) (limit : Nat)
    (cache : List (String × α)) : (trimTextureCache isP limit cache).Sublist cache := by
  obtain ⟨r, hr, hs⟩ := trimTextureCacheGo_sublist isP limit cache []
  rw [trimTextureCache, hr]
  simpa using hs

/-! ## Codec lemmas (claims C2, C3) -/

theorem zigZagEncode_decode_val (e : Nat) (he : e < 65536) (acc : Int) :
    zigZagEncodeVal (toSigned16
      (((((acc + zigZagDecodeVal e) % 65536).toNat : Int) - (((acc % 65536).toNat : Int)))
        % 65536).toNat) = e := by
  unfold zigZagDecodeVal zigZagEncodeVal toSigned16
  by_cases hpar : e % 2 = 0 <;> simp only [hpar, if_true, if_false, reduceIte] <;>
    split <;> split <;> omega

theorem zigZagDeltaEncodeGo_decodeGo (s : List Nat) :
    ∀ acc : Int, (∀ e ∈ s, e < 65536) →
      zigZagDeltaEncodeGo ((acc % 65536).toNat) (zigZagDeltaDecodeGo acc s) = s := by
  induction s with
  | nil => intro acc _; rfl
  | cons e rest ih =>
    intro acc h
    have h1 := zigZagEncode_decode_val e (h e (List.mem_cons_self e rest)) acc
    have h2 := ih (acc + zigZagDecodeVal e) fun x hx => h x (List.mem_cons_of_mem e hx)
    simp only [zigZagDeltaDecodeGo, zigZagDeltaEncodeGo, h1, h2]

theorem highWaterMarkDecodeGo_length (s : List Nat) :
    ∀ highest, (highWaterMarkDecodeGo highest s).length = s.length := by
  induction s with
  | nil => intro highest; rfl
  | cons code rest ih => intro highest; simp [highWaterMarkDecodeGo, ih]

theorem highWaterMarkDecodeGo_lt (s : List Nat) :
    ∀ (highest : Nat), validHwmStream highest s = true →
      highest + s.length ≤ 4294967296 →
      ∀ i, i < s.length →
        (highWaterMarkDecodeGo highest s).getD i 0 < highest + (s.take (i + 1)).count 0 := by
  induction s with
  | nil =>
    intro highest _ _ i hi
    exact absurd hi (by simp)
  | cons code rest ih =>
    intro highest hvalid hlen i hi
    rw [validHwmStream, Bool.and_eq_true, decide_eq_true_iff] at hvalid
    obtain ⟨hcode, hvalid'⟩ := hvalid
    cases i with
    | zero =>
      have hhb : highest < 4294967296 := by
        simp only [List.length_cons] at hlen
        omega
      have hemod : (((highest : Int) - (code : Int)) % 4294967296).toNat = highest - code := by
        omega
      by_cases hc : code = 0 <;>
        simp [highWaterMarkDecodeGo, hemod, List.count_cons, hc] <;> omega
    | succ j =>
      have hj : j < rest.length := by
        simp only [List.length_cons] at hi
        omega
      have hlen' : (if code = 0 then highest + 1 else highest) + rest.length ≤ 4294967296 := by
        simp only [List.length_cons] at hlen
        split <;> omega
      have hrec := ih (if code = 0 then highest + 1 else highest) hvalid' hlen' j hj
      simp only [highWaterMarkDecodeGo, List.getD_cons_succ, List.take_succ_cons,
        List.count_cons]
      by_cases hc : code = 0
      · rw [if_pos hc] at hrec
        simp only [hc, beq_self_eq_true, if_true]
        omega
      · rw [if_neg hc] at hrec ⊢
        have hbeq : (code == 0) = false := by simp [hc]
        rw [hbeq]
        simp only [Bool.false_eq_true, if_false]
        omega

/-! ## Coordinate bounds lemmas (claim C8) -/

theorem lonLatToTile_x_bounds (lonNorm rowNorm : ℚ) (zoom : Nat)
    (h1 : 0 ≤ lonNorm) (h2 : lonNorm < 1) :
    0 ≤ (lonLatToTile lonNorm rowNorm zoom).1 ∧
      (lonLatToTile lonNorm rowNorm zoom).1 < (2 ^ zoom : ℤ) := by
  unfold lonLatToTile
  have hn : (0 : ℚ) < 2 ^ zoom := by positivity
  constructor
  · rw [Int.le_floor]
    push_cast
    exact mul_nonneg h1 hn.le
  · rw [Int.floor_lt]
    push_cast
    calc lonNorm * 2 ^ zoom < 1 * 2 ^ zoom := by
          exact mul_lt_mul_of_pos_right h2 hn
      _ = 2 ^ zoom := one_mul _

theorem lonLatToTile_y_bounds (lonNorm rowNorm : ℚ) (zoom : Nat)
    (h1 : 0 ≤ rowNorm) (h2 : rowNorm < 2) :
    0 ≤ (lonLatToTile lonNorm rowNorm zoom).2.1 ∧
      (lonLatToTile lonNorm rowNorm zoom).2.1 < (2 ^ zoom : ℤ) := by
  unfold lonLatToTile
  have hn : (0 : ℚ) < 2 ^ zoom := by positivity
  constructor
  · rw [Int.le_floor]
    push_cast
    exact mul_nonneg (div_nonneg h1 (by norm_num)) hn.le
  · rw [Int.floor_lt]
    push_cast
    have hq : rowNorm / 2 < 1 := by linarith
    calc rowNorm / 2 * 2 ^ zoom < 1 * 2 ^ zoom := by
          exact mul_lt_mul_of_pos_right hq hn
      _ = 2 ^ zoom := one_mul _

/-! ## Quadtree ancestor theory (claims C1, C8) -/

theorem inSubtree_refl (t : TileCoord) : inSubtree t t := by
  unfold inSubtree
  simp

theorem inSubtree_trans {a b c : TileCoord} (hab : inSubtree a b) (hbc : inSubtree b c) :
    inSubtree a c := by
  obtain ⟨hz1, hx1, hy1⟩ := hab
  obtain ⟨hz2, hx2, hy2⟩ := hbc
  rw [hx2] at hx1
  rw [hy2] at hy1
  rw [Nat.div_div_eq_div_mul, ← pow_add] at hx1 hy1
  have hexp : c.z - b.z + (b.z - a.z) = c.z - a.z := by omega
  rw [hexp] at hx1 hy1
  exact ⟨hz1.trans hz2, hx1, hy1⟩

theorem inSubtree_same_level_eq {a b t : TileCoord} (ha : inSubtree a t) (hb : inSubtree b t)
    (hz : a.z = b.z) : a = b := by
  obtain ⟨_, hx1, hy1⟩ := ha
  obtain ⟨_, hx2, hy2⟩ := hb
  cases a with
  | mk az ax ay =>
    cases b with
    | mk bz bx bY =>
      dsimp at hz hx1 hx2 hy1 hy2
      subst hz
      rw [TileCoord.mk.injEq]
      exact ⟨rfl, hx1.trans hx2.symm, hy1.trans hy2.symm⟩

theorem not_isAncestorOf_self (t : TileCoord) : ¬ isAncestorOf t t :=
  fun h => absurd h.1 (lt_irrefl t.z)

theorem isAncestorOf_inSubtree {a b : TileCoord} (h : isAncestorOf a b) : inSubtree a b :=
  ⟨h.1.le, h.2.1, h.2.2⟩

theorem distinct_subtrees_not_ancestor {c1 c2 t1 t2 : TileCoord} (hz : c1.z = c2.z)
    (hne : c1 ≠ c2) (h1 : inSubtree c1 t1) (h2 : inSubtree c2 t2) :
    ¬ isAncestorOf t1 t2 := fun hanc =>
  hne (inSubtree_same_level_eq (inSubtree_trans h1 (isAncestorOf_inSubtree hanc)) h2 hz)

/-- A quadtree child `(z+1, cx, cy)` with `cx / 2 = x` and `cy / 2 = y` lies
in the subtree of `(z, x, y)`. -/
theorem child_inSubtree {z x y cx cy : Nat} (hx : cx / 2 = x) (hy : cy / 2 = y) :
    inSubtree ⟨z, x, y⟩ ⟨z + 1, cx, cy⟩ := by
  simp only [inSubtree]
  have h1 : z + 1 - z = 1 := by omega
  rw [h1, pow_one]
  omega

/-! ## Soundness of the quadtree walk (claim C1) -/

theorem visit_zero_eq (env : SelectorEnv) (z x y : Nat) (sel : List VisibleTile) :
    visit env 0 z x y sel =
      if env.visible z x y = false then (false, sel)
      else (true, sel ++ [selectTile env z x y]) := rfl

theorem visit_succ_eq (env : SelectorEnv) (fuel z x y : Nat) (sel : List VisibleTile) :
    visit env (fuel + 1) z x y sel =
      if env.visible z x y = false then (false, sel)
      else if decide (z < MIN_TILE_ZOOM) || env.refine z x y then
        if (visitChildren (env.visible (z + 1)) (visit env fuel (z + 1))
              [(x * 2, y * 2), (x * 2 + 1, y * 2), (x * 2, y * 2 + 1), (x * 2 + 1, y * 2 + 1)]
              (false, true, sel)).1 = false ∨
            (visitChildren (env.visible (z + 1)) (visit env fuel (z + 1))
              [(x * 2, y * 2), (x * 2 + 1, y * 2), (x * 2, y * 2 + 1), (x * 2 + 1, y * 2 + 1)]
              (false, true, sel)).2.1 = false then
          (true, (visitChildren (env.visible (z + 1)) (visit env fuel (z + 1))
              [(x * 2, y * 2), (x * 2 + 1, y * 2), (x * 2, y * 2 + 1), (x * 2 + 1, y * 2 + 1)]
              (false, true, sel)).2.2.take sel.length ++ [selectTile env z x y])
        else
          (true, (visitChildren (env.visible (z + 1)) (visit env fuel (z + 1))
              [(x * 2, y * 2), (x * 2 + 1, y * 2), (x * 2, y * 2 + 1), (x * 2 + 1, y * 2 + 1)]
              (false, true, sel)).2.2)
      else (true, sel ++ [selectTile env z x y]) := rfl

theorem visitChildren_spec {childZ : Nat} (vis : Nat → Nat → Bool)
    (visitF : Nat → Nat → List VisibleTile → Bool × List VisibleTile)
    (hF : VisitSound childZ visitF) :
    ∀ (cs : List (Nat × Nat)) (acc : Bool × Bool × List VisibleTile), cs.Nodup →
      ∃ extra,
        (visitChildren vis visitF cs acc).2.2 = acc.2.2 ++ extra ∧
        (∀ t ∈ extra, ∃ c ∈ cs, inSubtree ⟨childZ, c.1, c.2⟩ (tileOf t)) ∧
        (∀ t1 ∈ extra, ∀ t2 ∈ extra, ¬ isAncestorOf (tileOf t1) (tileOf t2)) := by
  intro cs
  induction cs with
  | nil =>
    intro acc _
    exact ⟨[], by simp [visitChildren], by simp, by simp⟩
  | cons c rest ih =>
    intro acc hnd
    rw [List.nodup_cons] at hnd
    obtain ⟨hcnotin, hndrest⟩ := hnd
    by_cases hv : vis c.1 c.2 = false
    · obtain ⟨extra, heq, hsub, hpair⟩ := ih acc hndrest
      refine ⟨extra, ?_, ?_, hpair⟩
      · simp only [visitChildren, if_pos hv]
        exact heq
      · intro t ht
        obtain ⟨c', hc', hsub'⟩ := hsub t ht
        exact ⟨c', List.mem_cons_of_mem c hc', hsub'⟩
    · obtain ⟨e1, he1, hsub1, hpair1⟩ := hF c.1 c.2 acc.2.2
      obtain ⟨e2, he2, hsub2, hpair2⟩ :=
        ih (true, acc.2.1 && (visitF c.1 c.2 acc.2.2).1, (visitF c.1 c.2 acc.2.2).2) hndrest
      refine ⟨e1 ++ e2, ?_, ?_, ?_⟩
      · simp only [visitChildren, if_neg hv]
        rw [he2]
        dsimp only
        rw [he1, List.append_assoc]
      · intro t ht
        rcases List.mem_append.mp ht with h | h
        · exact ⟨c, List.mem_cons_self c rest, hsub1 t h⟩
        · obtain ⟨c', hc', hs'⟩ := hsub2 t h
          exact ⟨c', List.mem_cons_of_mem c hc', hs'⟩
      · have cross : ∀ t1 ∈ e1, ∀ t2 ∈ e2, ¬ isAncestorOf (tileOf t1) (tileOf t2) ∧
            ¬ isAncestorOf (tileOf t2) (tileOf t1) := by
          intro t1 h1 t2 h2
          obtain ⟨c', hc', hs'⟩ := hsub2 t2 h2
          have hne : (⟨childZ, c.1, c.2⟩ : TileCoord) ≠ ⟨childZ, c'.1, c'.2⟩ := by
            intro hh
            rw [TileCoord.mk.injEq] at hh
            have hcc : c = c' := Prod.ext_iff.mpr ⟨hh.2.1, hh.2.2⟩
            subst hcc
            exact hcnotin hc'
          exact ⟨@distinct_subtrees_not_ancestor ⟨childZ, c.1, c.2⟩ ⟨childZ, c'.1, c'.2⟩
              (tileOf t1) (tileOf t2) rfl hne (hsub1 t1 h1) hs',
            @distinct_subtrees_not_ancestor ⟨childZ, c'.1, c'.2⟩ ⟨childZ, c.1, c.2⟩
              (tileOf t2) (tileOf t1) rfl hne.symm hs' (hsub1 t1 h1)⟩
        intro t1 ht1 t2 ht2
        rcases List.mem_append.mp ht1 with h1 | h1 <;> rcases List.mem_append.mp ht2 with h2 | h2
        · exact hpair1 t1 h1 t2 h2
        · exact (cross t1 h1 t2 h2).1
        · exact (cross t2 h2 t1 h1).2
        · exact hpair2 t1 h1 t2 h2

theorem visit_spec (env : SelectorEnv) :
    ∀ (fuel z x y : Nat) (sel : List VisibleTile), ∃ extra,
      (visit env fuel z x y sel).2 = sel ++ extra ∧
      (∀ t ∈ extra, inSubtree ⟨z, x, y⟩ (tileOf t)) ∧
      (∀ t1 ∈ extra, ∀ t2 ∈ extra, ¬ isAncestorOf (tileOf t1) (tileOf t2)) := by
  intro fuel
  induction fuel with
  | zero =>
    intro z x y sel
    by_cases hv : env.visible z x y = false
    · exact ⟨[], by rw [visit_zero_eq, if_pos hv]; simp, by simp, by simp⟩
    · refine ⟨[selectTile env z x y], by rw [visit_zero_eq, if_neg hv], ?_, ?_⟩
      · intro t ht
        rw [List.mem_singleton] at ht
        subst ht
        exact inSubtree_refl _
      · intro t1 ht1 t2 ht2
        rw [List.mem_singleton] at ht1 ht2
        subst ht1
        subst ht2
        exact not_isAncestorOf_self _
  | succ fuel ih =>
    intro z x y sel
    by_cases hv : env.visible z x y = false
    · exact ⟨[], by rw [visit_succ_eq, if_pos hv]; simp, by simp, by simp⟩
    · by_cases hr : (decide (z < MIN_TILE_ZOOM) || env.refine z x y) = true
      · have hsound : VisitSound (z + 1) (visit env fuel (z + 1)) :=
          fun cx cy s => ih (z + 1) cx cy s
        have hnodup :
            ([(x * 2, y * 2), (x * 2 + 1, y * 2), (x * 2, y * 2 + 1), (x * 2 + 1, y * 2 + 1)] :
              List (Nat × Nat)).Nodup := by
          simp [List.nodup_cons, Prod.mk.injEq]
        obtain ⟨ec, hec, hsubc, hpairc⟩ :=
          visitChildren_spec (env.visible (z + 1)) (visit env fuel (z + 1)) hsound
            [(x * 2, y * 2), (x * 2 + 1, y * 2), (x * 2, y * 2 + 1), (x * 2 + 1, y * 2 + 1)]
            (false, true, sel) hnodup
        dsimp only at hec
        have hlift : ∀ t ∈ ec, inSubtree ⟨z, x, y⟩ (tileOf t) := by
          intro t ht
          obtain ⟨c, hc, hs⟩ := hsubc t ht
          have hchild : inSubtree ⟨z, x, y⟩ ⟨z + 1, c.1, c.2⟩ := by
            simp only [List.mem_cons, List.not_mem_nil, or_false] at hc
            rcases hc with rfl | rfl | rfl | rfl
            all_goals exact child_inSubtree (by dsimp only; omega) (by dsimp only; omega)
          exact inSubtree_trans hchild hs
        rw [visit_succ_eq, if_neg hv, if_pos hr]
        by_cases hfb :
            (visitChildren (env.visible (z + 1)) (visit env fuel (z + 1))
              [(x * 2, y * 2), (x * 2 + 1, y * 2), (x * 2, y * 2 + 1), (x * 2 + 1, y * 2 + 1)]
              (false, true, sel)).1 = false ∨
            (visitChildren (env.visible (z + 1)) (visit env fuel (z + 1))
              [(x * 2, y * 2), (x * 2 + 1, y * 2), (x * 2, y * 2 + 1), (x * 2 + 1, y * 2 + 1)]
              (false, true, sel)).2.1 = false
        · rw [if_pos hfb]
          refine ⟨[selectTile env z x y], ?_, ?_, ?_⟩
          · dsimp only
            rw [hec, List.take_left]
          · intro t ht
            rw [List.mem_singleton] at ht
            subst ht
            exact inSubtree_refl _
          · intro t1 ht1 t2 ht2
            rw [List.mem_singleton] at ht1 ht2
            subst ht1
            subst ht2
            exact not_isAncestorOf_self _
        · rw [if_neg hfb]
          exact ⟨ec, hec, hlift, hpairc⟩
      · refine ⟨[selectTile env z x y], ?_, ?_, ?_⟩
        · rw [visit_succ_eq, if_neg hv, if_neg hr]
        · intro t ht
          rw [List.mem_singleton] at ht
          subst ht
          exact inSubtree_refl _
        · intro t1 ht1 t2 ht2
          rw [List.mem_singleton] at ht1 ht2
          subst ht1
          subst ht2
          exact not_isAncestorOf_self _

/-- Tiles returned by `getVisibleTiles` come from the root call of `visit`
(up to the stable sort, which permutes them). -/
theorem mem_getVisibleTiles {env : SelectorEnv} {t : TileCoord}
    (h : t ∈ getVisibleTiles env) :
    ∃ v ∈ (visit env env.maxLevel 0 0 0 []).2, tileOf v = t := by
  unfold getVisibleTiles at h
  obtain ⟨v, hv, rfl⟩ := List.mem_map.mp h
  exact ⟨v, (List.mergeSort_perm _ angleOrder).mem_iff.mp hv, rfl⟩

/-! ## The load queue (claims C5, C6, C7, C10) -/

theorem processGo_fields (fuel : Nat) (s : TMState) :
    (processTileLoadQueueGo fuel s).textureCache = s.textureCache ∧
    (processTileLoadQueueGo fuel s).texturePromises = s.texturePromises ∧
    (processTileLoadQueueGo fuel s).meshCache = s.meshCache ∧
    (processTileLoadQueueGo fuel s).resolved = s.resolved ∧
    (processTileLoadQueueGo fuel s).tileSuccessCount = s.tileSuccessCount ∧
    (processTileLoadQueueGo fuel s).nextPromiseId = s.nextPromiseId ∧
    (processTileLoadQueueGo fuel s).nextTextureId = s.nextTextureId := by
  induction fuel generalizing s with
  | zero => exact ⟨rfl, rfl, rfl, rfl, rfl, rfl, rfl⟩
  | succ fuel ih =>
    rw [processTileLoadQueueGo]
    by_cases ha : s.activeTileLoads < MAX_CONCURRENT_TILE_LOADS
    · rw [if_pos ha]
      cases hp : s.pendingTileLoads with
      | nil => exact ⟨rfl, rfl, rfl, rfl, rfl, rfl, rfl⟩
      | cons task rest => exact ih _
    · rw [if_neg ha]
      exact ⟨rfl, rfl, rfl, rfl, rfl, rfl, rfl⟩

theorem processGo_request_mono (fuel : Nat) (s : TMState) :
    s.tileRequestCount ≤ (processTileLoadQueueGo fuel s).tileRequestCount := by
  induction fuel generalizing s with
  | zero => exact le_refl _
  | succ fuel ih =>
    rw [processTileLoadQueueGo]
    by_cases ha : s.activeTileLoads < MAX_CONCURRENT_TILE_LOADS
    · rw [if_pos ha]
      cases hp : s.pendingTileLoads with
      | nil => exact le_refl _
      | cons task rest =>
        dsimp only
        exact le_trans (Nat.le_succ _)
          (ih { s with
            pendingTileLoads := rest
            activeTileLoads := s.activeTileLoads + 1
            tileRequestCount := s.tileRequestCount + 1
            inFlight := s.inFlight ++ [task] })
    · rw [if_neg ha]

theorem processGo_fifo (fuel : Nat) (s : TMState) :
    ∃ k, (processTileLoadQueueGo fuel s).pendingTileLoads = s.pendingTileLoads.drop k ∧
      (processTileLoadQueueGo fuel s).inFlight = s.inFlight ++ s.pendingTileLoads.take k := by
  induction fuel generalizing s with
  | zero =>
    exact ⟨0, by simp [processTileLoadQueueGo], by simp [processTileLoadQueueGo]⟩
  | succ fuel ih =>
    rw [processTileLoadQueueGo]
    by_cases ha : s.activeTileLoads < MAX_CONCURRENT_TILE_LOADS
    · rw [if_pos ha]
      cases hp : s.pendingTileLoads with
      | nil => exact ⟨0, by simp [hp], by simp⟩
      | cons task rest =>
        obtain ⟨k, h1, h2⟩ := ih
          { s with
            pendingTileLoads := rest
            activeTileLoads := s.activeTileLoads + 1
            tileRequestCount := s.tileRequestCount + 1
            inFlight := s.inFlight ++ [task] }
        dsimp only at h1 h2
        refine ⟨k + 1, ?_, ?_⟩
        · rw [h1]
          rfl
        · rw [h2]
          simp
    · rw [if_neg ha]
      exact ⟨0, by simp, by simp⟩

theorem processGo_good (fuel : Nat) (s : TMState) (h : GoodState s) :
    GoodState (processTileLoadQueueGo fuel s) := by
  induction fuel generalizing s with
  | zero => exact h
  | succ fuel ih =>
    rw [processTileLoadQueueGo]
    by_cases ha : s.activeTileLoads < MAX_CONCURRENT_TILE_LOADS
    · rw [if_pos ha]
      cases hp : s.pendingTileLoads with
      | nil => exact h
      | cons task rest =>
        apply ih
        obtain ⟨h1, h2, h3, h4⟩ := h
        refine ⟨?_, ?_, ?_, h4⟩
        · dsimp
          omega
        · dsimp
          simp [h2]
        · dsimp
          simp only [List.length_append, List.length_singleton]
          omega
    · rw [if_neg ha]
      exact h

theorem processQueue_good (s : TMState) (h : GoodState s) :
    GoodState (processTileLoadQueue s) := by
  rw [processTileLoadQueue]
  exact processGo_good _ s h

theorem processQueue_fields (s : TMState) :
    (processTileLoadQueue s).textureCache = s.textureCache ∧
    (processTileLoadQueue s).texturePromises = s.texturePromises ∧
    (processTileLoadQueue s).meshCache = s.meshCache ∧
    (processTileLoadQueue s).resolved = s.resolved ∧
    (processTileLoadQueue s).tileSuccessCount = s.tileSuccessCount ∧
    (processTileLoadQueue s).nextPromiseId = s.nextPromiseId ∧
    (processTileLoadQueue s).nextTextureId = s.nextTextureId := by
  rw [processTileLoadQueue]
  exact processGo_fields _ s

theorem processQueue_textureCache (s : TMState) :
    (processTileLoadQueue s).textureCache = s.textureCache :=
  (processQueue_fields s).1

theorem processQueue_texturePromises (s : TMState) :
    (processTileLoadQueue s).texturePromises = s.texturePromises :=
  (processQueue_fields s).2.1

theorem processQueue_resolved (s : TMState) :
    (processTileLoadQueue s).resolved = s.resolved :=
  (processQueue_fields s).2.2.2.1

theorem processQueue_request_mono (s : TMState) :
    s.tileRequestCount ≤ (processTileLoadQueue s).tileRequestCount := by
  rw [processTileLoadQueue]
  exact processGo_request_mono _ s

theorem processQueue_fifo (s : TMState) :
    ∃ k, (processTileLoadQueue s).pendingTileLoads = s.pendingTileLoads.drop k ∧
      (processTileLoadQueue s).inFlight = s.inFlight ++ s.pendingTileLoads.take k := by
  rw [processTileLoadQueue]
  exact processGo_fifo _ s

theorem initialState_good : GoodState initialState := by
  refine ⟨by simp [initialState, MAX_CONCURRENT_TILE_LOADS], rfl, by simp [initialState], ?_⟩
  intro k v h
  exact absurd h (by simp [initialState, alookup])

theorem loadTileTexture_good (s : TMState) (key : String) (h : GoodState s) :
    GoodState (loadTileTexture s key).2 := by
  obtain ⟨h1, h2, h3, h4⟩ := h
  unfold loadTileTexture
  cases hc : alookup key s.textureCache with
  | some tex =>
    refine ⟨h1, h2, h3, ?_⟩
    intro k v hk
    dsimp at hk ⊢
    rw [alookup_touchTextureCache]
    exact h4 k v hk
  | none =>
    cases hpend : alookup key s.texturePromises with
    | some pid => exact ⟨h1, h2, h3, h4⟩
    | none =>
      have hgood1 : GoodState
          { s with
            nextPromiseId := s.nextPromiseId + 1
            pendingTileLoads := s.pendingTileLoads ++ [⟨key, s.nextPromiseId⟩] } :=
        ⟨h1, h2, h3, h4⟩
      obtain ⟨g1, g2, g3, g4⟩ := processQueue_good _ hgood1
      refine ⟨g1, g2, g3, ?_⟩
      intro k v hk
      dsimp only at hk ⊢
      rw [processQueue_texturePromises] at hk
      rw [processQueue_textureCache]
      dsimp only at hk ⊢
      rw [alookup_append] at hk
      cases hold : alookup k s.texturePromises with
      | some w =>
        rw [hold] at hk
        exact h4 k w hold
      | none =>
        rw [hold] at hk
        dsimp only [alookup] at hk
        by_cases hke : key = k
        · rw [← hke]
          exact hc
        · rw [if_neg hke] at hk
          exact absurd hk (by simp)

theorem completeSuccess_good (s : TMState) (key : String) (h : GoodState s) :
    GoodState (completeSuccess s key) := by
  obtain ⟨h1, h2, h3, h4⟩ := h
  unfold completeSuccess
  cases hf : s.inFlight.find? (fun t => t.key == key) with
  | none => exact ⟨h1, h2, h3, h4⟩
  | some task =>
    apply processQueue_good
    have hmem := List.mem_of_find?_eq_some hf
    have hptask := List.find?_some hf
    have hlen : (s.inFlight.eraseP (fun t => t.key == key)).length = s.inFlight.length - 1 :=
      List.length_eraseP_of_mem hmem hptask
    have hpos : 1 ≤ s.inFlight.length := List.length_pos.mpr (List.ne_nil_of_mem hmem)
    refine ⟨?_, ?_, ?_, ?_⟩
    · dsimp
      omega
    · dsimp
      omega
    · dsimp
      omega
    · intro k v hk
      dsimp at hk ⊢
      have hkne : ¬ k = key := by
        intro hkk
        rw [hkk, alookup_eraseKey_self] at hk
        exact absurd hk (by simp)
      have hold : alookup k s.texturePromises = some v := alookup_eraseKey_eq_some _ _ _ _ hk
      have hnone := h4 k v hold
      apply alookup_none_of_sublist k (trimTextureCache_sublist _ _ _)
      rw [alookup_touchTextureCache]
      rw [alookup_mapSet_ne _ _ _ _ hkne]
      exact hnone

theorem completeFailure_good (s : TMState) (key : String) (h : GoodState s) :
    GoodState (completeFailure s key) := by
  obtain ⟨h1, h2, h3, h4⟩ := h
  unfold completeFailure
  cases hf : s.inFlight.find? (fun t => t.key == key) with
  | none => exact ⟨h1, h2, h3, h4⟩
  | some task =>
    apply processQueue_good
    have hmem := List.mem_of_find?_eq_some hf
    have hptask := List.find?_some hf
    have hlen : (s.inFlight.eraseP (fun t => t.key == key)).length = s.inFlight.length - 1 :=
      List.length_eraseP_of_mem hmem hptask
    have hpos : 1 ≤ s.inFlight.length := List.length_pos.mpr (List.ne_nil_of_mem hmem)
    refine ⟨?_, ?_, ?_, ?_⟩
    · dsimp
      omega
    · dsimp
      omega
    · dsimp
      omega
    · intro k v hk
      dsimp at hk ⊢
      exact h4 k v (alookup_eraseKey_eq_some _ _ _ _ hk)

theorem step_good (e : TMEvent) (s : TMState) (h : GoodState s) : GoodState (step e s) := by
  cases e with
  | load k => exact loadTileTexture_good s k h
  | succeed k => exact completeSuccess_good s k h
  | fail k => exact completeFailure_good s k h

theorem foldl_step_good (evs : List TMEvent) :
    ∀ s : TMState, GoodState s → GoodState (evs.foldl (fun s e => step e s) s) := by
  induction evs with
  | nil => exact fun s h => h
  | cons e rest ih => exact fun s h => ih (step e s) (step_good e s h)

theorem run_good (evs : List TMEvent) : GoodState (run evs) :=
  foldl_step_good evs initialState initialState_good

theorem run_append_single (evs : List TMEvent) (e : TMEvent) :
    run (evs ++ [e]) = step e (run evs) := by
  simp [run, List.foldl_append]

/-! ## Claim theorems -/

/-- C2 (counterexample): on the code stream `[1]` the decoder computes
`highest - code = 0 - 1`, which the `Uint32Array` store wraps to
`2^32 - 1`; no vertex has been introduced (no zero code), so the emitted
index is not below the introduced-vertex count, refuting the claim for
arbitrary input streams. -/
theorem highWaterMarkDecode_unbounded_emit :
    (highWaterMarkDecode [1]).getD 0 0 = 4294967295 ∧
    ¬ ((highWaterMarkDecode [1]).getD 0 0 < ([1].take 1).count 0) := by
  constructor
  · decide
  · decide

/-- C2 (amended): for well-formed high-water-mark streams — every code at
most the running `highest`, so the `Uint32Array` store never wraps — each
decoded index is strictly below the number of codes equal to `0` among
positions `0..i`, i.e. the count of vertices introduced so far. -/
theorem highWaterMarkDecode_index_lt (encoded : List Nat)
    (hvalid : validHwmStream 0 encoded = true)
    (hlen : encoded.length ≤ 4294967296)
    (i : Nat) (hi : i < encoded.length) :
    (highWaterMarkDecode encoded).getD i 0 < (encoded.take (i + 1)).count 0 := by
  have h := highWaterMarkDecodeGo_lt encoded 0 hvalid (by omega) i hi
  simpa [highWaterMarkDecode] using h

/-- Witness for `highWaterMarkDecode_index_lt` at the stream
`[0, 0, 1, 2, 0]` and position 3. -/
theorem highWaterMarkDecode_index_lt_witness :
    validHwmStream 0 [0, 0, 1, 2, 0] = true ∧
    [0, 0, 1, 2, 0].length ≤ 4294967296 ∧ 3 < [0, 0, 1, 2, 0].length ∧
    (highWaterMarkDecode [0, 0, 1, 2, 0]).getD 3 0 < ([0, 0, 1, 2, 0].take 4).count 0 :=
  ⟨by decide, by decide, by decide,
    highWaterMarkDecode_index_lt [0, 0, 1, 2, 0] (by decide) (by decide) 3 (by decide)⟩

/-- C3: the reference zig-zag delta encoder over uint16 arithmetic is a
left inverse of `zigZagDeltaDecode`: `encode (decode s) = s` for every
stream of uint16 values. -/
theorem zigZagDeltaDecode_roundTrip (s : List Nat) (h : ∀ e ∈ s, e < 65536) :
    zigZagDeltaEncode (zigZagDeltaDecode s) = s := by
  have hgo := zigZagDeltaEncodeGo_decodeGo s 0 h
  simpa [zigZagDeltaDecode, zigZagDeltaEncode] using hgo

/-- Witness for `zigZagDeltaDecode_roundTrip` at `[0, 3, 7, 65535]`. -/
theorem zigZagDeltaDecode_roundTrip_witness :
    (∀ e ∈ [0, 3, 7, 65535], e < 65536) ∧
    zigZagDeltaEncode (zigZagDeltaDecode [0, 3, 7, 65535]) = [0, 3, 7, 65535] :=
  ⟨by decide, zigZagDeltaDecode_roundTrip [0, 3, 7, 65535] (by decide)⟩

/-- C4: `trimTextureCache` never removes an entry whose key is protected
(a live-mesh key): protected entries of the cache survive trimming, the
result is a sublist (only removals, in LRU iteration order), and trimming
stops only once the size is within the limit or every surviving entry is
protected (so the cache may stay above the limit). -/
theorem trimTextureCache_protected_spec :
    (∀ (isProtected : String → Bool) (limit : Nat) (cache : List (String × Nat))
        (e : String × Nat), isProtected e.1 = true → e ∈ cache →
        e ∈ trimTextureCache isProtected limit cache) ∧
    (∀ (isProtected : String → Bool) (limit : Nat) (cache : List (String × Nat)),
        (trimTextureCache isProtected limit cache).Sublist cache) ∧
    (∀ (isProtected : String → Bool) (limit : Nat) (cache : List (String × Nat)),
        (trimTextureCache isProtected limit cache).length ≤ limit ∨
          ∀ e ∈ trimTextureCache isProtected limit cache, isProtected e.1 = true) := by
  refine ⟨?_, ?_, ?_⟩
  · intro p limit cache e hp he
    exact trimTextureCacheGo_protected p limit cache [] e hp (Or.inr he)
  · intro p limit cache
    exact trimTextureCache_sublist p limit cache
  · intro p limit cache
    exact trimTextureCacheGo_size p limit cache [] (by simp)

/-- Witness for `trimTextureCache_protected_spec`: a protected entry
survives a trim to limit 0. -/
theorem trimTextureCache_protected_spec_witness :
    ((fun k => k == "0/0/0") : String → Bool) "0/0/0" = true ∧
    ("0/0/0", 7) ∈ [("0/0/0", 7), ("1/0/0", 8)] ∧
    ("0/0/0", 7) ∈ trimTextureCache (fun k => k == "0/0/0") 0 [("0/0/0", 7), ("1/0/0", 8)] :=
  ⟨by decide, by decide,
    trimTextureCache_protected_spec.1 (fun k => k == "0/0/0") 0
      [("0/0/0", 7), ("1/0/0", 8)] ("0/0/0", 7) (by decide) (by decide)⟩

/-- C8 (counterexample): the claimed longitude domain includes 180°, where
the source computes `lon + 180 = 360.0` and `360.0 / 360 = 1.0`, both
exact in doubles, so the computed longitude fraction is exactly 1 and
`x = Math.floor(1 * 2^zoom) = 2^zoom`; at zoom 1 the tile x-index is 2,
violating `x < 2^1`.  (The same fraction 1 is also reached strictly inside
the interval, at `lon = 180 - 2^-45`, where `lon + 180` rounds up to
`360.0` by tie-to-even.) -/
theorem lonLatToTile_boundary_out_of_bounds :
    (lonLatToTile 1 0 1).1 = 2 ∧ ¬ ((lonLatToTile 1 0 1).1 < (2 ^ 1 : ℤ)) := by
  have hx : (lonLatToTile 1 0 1).1 = 2 := by
    have harg : (1 : ℚ) * 2 ^ 1 = 2 := by norm_num
    show Int.floor ((1 : ℚ) * 2 ^ 1) = 2
    rw [harg]
    exact Int.floor_intCast 2
  exact ⟨hx, by rw [hx]; norm_num⟩

/-- C8 (amended): quadtree child arithmetic preserves the TileCoord bounds,
every tile produced by `getVisibleTiles` satisfies them (the selector only
derives coordinates from the root by child arithmetic), and `lonLatToTile`
satisfies `0 ≤ x < 2^zoom` whenever the computed longitude fraction
`(lon + 180) / 360` lies in `[0, 1)`, and `0 ≤ y < 2^zoom` whenever the
computed row fraction `1 - mercY/π` lies in `[0, 2)`.  Both conditions
fail on boundaries the program reaches: the longitude fraction is exactly
1 at `lon = 180°` (inside the claimed domain) and even at
`lon = 180 - 2^-45` (tie-to-even rounds `lon + 180` up to `360.0`),
giving `x = 2^zoom`; and the latitude clamp constant 85.05112878° exceeds
the exact Mercator limit ≈ 85.05112877980659°, so at the poles the
computed row fraction falls outside `[0, 2)` and `y = -1` (north clamp)
or `y = 2^zoom` (south clamp). -/
theorem tileCoord_bounds_spec :
    (∀ z x y : Nat, x < 2 ^ z → y < 2 ^ z →
      x * 2 < 2 ^ (z + 1) ∧ x * 2 + 1 < 2 ^ (z + 1) ∧
      y * 2 < 2 ^ (z + 1) ∧ y * 2 + 1 < 2 ^ (z + 1)) ∧
    (∀ (env : SelectorEnv) (t : TileCoord), t ∈ getVisibleTiles env →
      t.x < 2 ^ t.z ∧ t.y < 2 ^ t.z) ∧
    (∀ (lonNorm rowNorm : ℚ) (zoom : Nat), 0 ≤ lonNorm → lonNorm < 1 →
      0 ≤ (lonLatToTile lonNorm rowNorm zoom).1 ∧
        (lonLatToTile lonNorm rowNorm zoom).1 < (2 ^ zoom : ℤ)) ∧
    (∀ (lonNorm rowNorm : ℚ) (zoom : Nat), 0 ≤ rowNorm → rowNorm < 2 →
      0 ≤ (lonLatToTile lonNorm rowNorm zoom).2.1 ∧
        (lonLatToTile lonNorm rowNorm zoom).2.1 < (2 ^ zoom : ℤ)) := by
  refine ⟨?_, ?_, ?_, ?_⟩
  · intro z x y hx hy
    have h2 : 2 ^ (z + 1) = 2 ^ z * 2 := pow_succ 2 z
    omega
  · intro env t ht
    obtain ⟨v, hv, rfl⟩ := mem_getVisibleTiles ht
    obtain ⟨extra, heq, hsub, _⟩ := visit_spec env env.maxLevel 0 0 0 []
    rw [heq, List.nil_append] at hv
    obtain ⟨hz, hx, hy⟩ := hsub v hv
    dsimp only [tileOf] at hx hy ⊢
    rw [Nat.sub_zero] at hx hy
    have hpow : 0 < 2 ^ v.z := pow_pos (by norm_num) v.z
    exact ⟨(Nat.div_eq_zero_iff hpow).mp hx.symm, (Nat.div_eq_zero_iff hpow).mp hy.symm⟩
  · intro lon m zoom hl1 hl2
    exact lonLatToTile_x_bounds lon m zoom hl1 hl2
  · intro lon m zoom hm1 hm2
    exact lonLatToTile_y_bounds lon m zoom hm1 hm2

/-- Evaluation of `getVisibleTiles` in the trivial environment (maxLevel 0,
everything visible, no refinement): exactly the root tile is selected. -/
theorem trivialEnv_getVisibleTiles :
    getVisibleTiles ⟨0, fun _ _ _ => true, fun _ _ _ => false, fun _ _ _ => 0⟩ =
      [⟨0, 0, 0⟩] := by
  rw [getVisibleTiles, visit_zero_eq]
  simp [selectTile, tileOf]

/-- Witness for `tileCoord_bounds_spec`: concrete instances of each
conjunct. -/
theorem tileCoord_bounds_spec_witness :
    (0 * 2 < 2 ^ 1 ∧ 0 * 2 + 1 < 2 ^ 1 ∧ 0 * 2 < 2 ^ 1 ∧ 0 * 2 + 1 < 2 ^ 1) ∧
    ((⟨0, 0, 0⟩ : TileCoord).x < 2 ^ (⟨0, 0, 0⟩ : TileCoord).z ∧
      (⟨0, 0, 0⟩ : TileCoord).y < 2 ^ (⟨0, 0, 0⟩ : TileCoord).z) ∧
    (0 ≤ (lonLatToTile (1/3) 0 2).1 ∧ (lonLatToTile (1/3) 0 2).1 < (2 ^ 2 : ℤ)) ∧
    (0 ≤ (lonLatToTile 0 (1/2) 2).2.1 ∧ (lonLatToTile 0 (1/2) 2).2.1 < (2 ^ 2 : ℤ)) :=
  ⟨tileCoord_bounds_spec.1 0 0 0 (by decide) (by decide),
    tileCoord_bounds_spec.2.1
      ⟨0, fun _ _ _ => true, fun _ _ _ => false, fun _ _ _ => 0⟩ ⟨0, 0, 0⟩
      (by simp [trivialEnv_getVisibleTiles]),
    tileCoord_bounds_spec.2.2.1 (1/3) 0 2 (by norm_num) (by norm_num),
    tileCoord_bounds_spec.2.2.2 0 (1/2) 2 (by norm_num) (by norm_num)⟩

theorem processQueue_successCount (s : TMState) :
    (processTileLoadQueue s).tileSuccessCount = s.tileSuccessCount :=
  (processQueue_fields s).2.2.2.2.1

theorem loadTileTexture_counters (s : TMState) (key : String) :
    s.tileRequestCount ≤ (loadTileTexture s key).2.tileRequestCount ∧
    s.tileSuccessCount ≤ (loadTileTexture s key).2.tileSuccessCount := by
  unfold loadTileTexture
  cases hc : alookup key s.textureCache with
  | some tex => exact ⟨le_refl _, le_refl _⟩
  | none =>
    cases hp : alookup key s.texturePromises with
    | some pid => exact ⟨le_refl _, le_refl _⟩
    | none =>
      dsimp only
      constructor
      · exact processQueue_request_mono
          { s with
            nextPromiseId := s.nextPromiseId + 1
            pendingTileLoads := s.pendingTileLoads ++ [⟨key, s.nextPromiseId⟩] }
      · exact le_of_eq (processQueue_successCount
          { s with
            nextPromiseId := s.nextPromiseId + 1
            pendingTileLoads := s.pendingTileLoads ++ [⟨key, s.nextPromiseId⟩] }).symm

theorem completeSuccess_counters (s : TMState) (key : String) :
    s.tileRequestCount ≤ (completeSuccess s key).tileRequestCount ∧
    s.tileSuccessCount ≤ (completeSuccess s key).tileSuccessCount := by
  unfold completeSuccess
  cases hf : s.inFlight.find? (fun t => t.key == key) with
  | none => exact ⟨le_refl _, le_refl _⟩
  | some task =>
    dsimp only
    constructor
    · exact processQueue_request_mono
        { s with
          tileSuccessCount := s.tileSuccessCount + 1
          activeTileLoads := s.activeTileLoads - 1
          inFlight := s.inFlight.eraseP (fun t => t.key == key)
          textureCache :=
            trimTextureCache (fun k => s.meshCache.contains k) MAX_TEXTURE_CACHE
              (touchTextureCache (mapSet s.textureCache key s.nextTextureId) key)
          texturePromises := eraseKey s.texturePromises key
          resolved := s.resolved ++ [(task.pid, some s.nextTextureId)]
          nextTextureId := s.nextTextureId + 1 }
    · rw [processQueue_successCount]
      exact Nat.le_succ _

theorem completeFailure_counters (s : TMState) (key : String) :
    s.tileRequestCount ≤ (completeFailure s key).tileRequestCount ∧
    s.tileSuccessCount ≤ (completeFailure s key).tileSuccessCount := by
  unfold completeFailure
  cases hf : s.inFlight.find? (fun t => t.key == key) with
  | none => exact ⟨le_refl _, le_refl _⟩
  | some task =>
    dsimp only
    constructor
    · exact processQueue_request_mono
        { s with
          activeTileLoads := s.activeTileLoads - 1
          inFlight := s.inFlight.eraseP (fun t => t.key == key)
          texturePromises := eraseKey s.texturePromises key
          resolved := s.resolved ++ [(task.pid, none)] }
    · rw [processQueue_successCount]

theorem step_counters_mono (e : TMEvent) (s : TMState) :
    s.tileRequestCount ≤ (step e s).tileRequestCount ∧
    s.tileSuccessCount ≤ (step e s).tileSuccessCount := by
  cases e with
  | load k => exact loadTileTexture_counters s k
  | succeed k => exact completeSuccess_counters s k
  | fail k => exact completeFailure_counters s k

/-- C1: for every camera state, globe orientation and zoom input (i.e. for
every visibility/refinement/angle oracle and level bound), the tile list
returned by `getVisibleTiles` contains no pair of tiles in quadtree
ancestor relation: when the parent fallback fires, `visit` first truncates
everything its subtree had selected in this recursion
(`selected.length = selectionStart`). -/
theorem getVisibleTiles_no_ancestor (env : SelectorEnv) (t1 t2 : TileCoord)
    (h1 : t1 ∈ getVisibleTiles env) (h2 : t2 ∈ getVisibleTiles env) :
    ¬ isAncestorOf t1 t2 := by
  obtain ⟨v1, hv1, rfl⟩ := mem_getVisibleTiles h1
  obtain ⟨v2, hv2, rfl⟩ := mem_getVisibleTiles h2
  obtain ⟨extra, heq, _, hpair⟩ := visit_spec env env.maxLevel 0 0 0 []
  rw [heq, List.nil_append] at hv1 hv2
  exact hpair v1 hv1 v2 hv2

/-- Witness for `getVisibleTiles_no_ancestor` in the trivial environment,
where the returned list is exactly the root tile. -/
theorem getVisibleTiles_no_ancestor_witness :
    (⟨0, 0, 0⟩ : TileCoord) ∈
      getVisibleTiles ⟨0, fun _ _ _ => true, fun _ _ _ => false, fun _ _ _ => 0⟩ ∧
    ¬ isAncestorOf ⟨0, 0, 0⟩ ⟨0, 0, 0⟩ :=
  ⟨by simp [trivialEnv_getVisibleTiles],
    getVisibleTiles_no_ancestor ⟨0, fun _ _ _ => true, fun _ _ _ => false, fun _ _ _ => 0⟩
      ⟨0, 0, 0⟩ ⟨0, 0, 0⟩ (by simp [trivialEnv_getVisibleTiles])
      (by simp [trivialEnv_getVisibleTiles])⟩

/-- C5: a `loadTileTexture` call for a key whose request is still pending
returns the very same in-flight promise and leaves the whole manager state
unchanged — no task is queued, no network load started, no counter bumped —
and likewise `CesiumTerrainProvider.loadTile` returns the cached pending
promise with no new fetch; both callers therefore await the same promise
and receive the same resolved payload. -/
theorem pendingRequest_dedup :
    (∀ (evs : List TMEvent) (key : String) (pid : Nat),
      alookup key (run evs).texturePromises = some pid →
      loadTileTexture (run evs) key = (LoadResult.pendingPromise pid, run evs)) ∧
    (∀ (ts : CesiumTerrainProviderState) (key : String) (pid : Nat),
      alookup key ts.tilePromiseCache = some pid →
      CesiumTerrainProvider.loadTile ts key = (pid, ts)) := by
  constructor
  · intro evs key pid h
    obtain ⟨_, _, _, h4⟩ := run_good evs
    have hcache : alookup key (run evs).textureCache = none := h4 key pid h
    unfold loadTileTexture
    rw [hcache, h]
  · intro ts key pid h
    unfold CesiumTerrainProvider.loadTile
    rw [h]

/-- Witness for `pendingRequest_dedup`: after one `load` call for tile
(3, 4, 3) its promise is pending, and a second concurrent call returns the
same promise without touching the state. -/
theorem pendingRequest_dedup_witness :
    alookup "3/4/3" (run [TMEvent.load "3/4/3"]).texturePromises = some 0 ∧
    loadTileTexture (run [TMEvent.load "3/4/3"]) "3/4/3" =
      (LoadResult.pendingPromise 0, run [TMEvent.load "3/4/3"]) ∧
    alookup "3/4/3"
      ({ tilePromiseCache := [("3/4/3", 5)], issuedRequests := ["3/4/3"], resolved := [],
            nextPid := 6 } : CesiumTerrainProviderState).tilePromiseCache = some 5 ∧
    CesiumTerrainProvider.loadTile
      { tilePromiseCache := [("3/4/3", 5)], issuedRequests := ["3/4/3"], resolved := [],
            nextPid := 6 } "3/4/3" =
      (5, { tilePromiseCache := [("3/4/3", 5)], issuedRequests := ["3/4/3"], resolved := [],
            nextPid := 6 }) :=
  ⟨by decide, pendingRequest_dedup.1 [TMEvent.load "3/4/3"] "3/4/3" 0 (by decide),
    by decide, pendingRequest_dedup.2
      { tilePromiseCache := [("3/4/3", 5)], issuedRequests := ["3/4/3"], resolved := [],
            nextPid := 6 } "3/4/3" 5 (by decide)⟩

/-- C6: when an in-flight request for a key completes — with success or
failure — its pending-map entry is removed (`texturePromises.delete` /
the terrain promise chain's `finally` delete), so a later call can issue a
fresh request; and a failure resolves the promise with `null` (modelled as
`none`) instead of propagating an exception. -/
theorem requestCompletion_cleanup :
    (∀ (s : TMState) (key : String) (task : LoadTask),
      s.inFlight.find? (fun t => t.key == key) = some task →
      alookup key (completeSuccess s key).texturePromises = none ∧
      alookup key (completeFailure s key).texturePromises = none ∧
      (task.pid, (none : Option Nat)) ∈ (completeFailure s key).resolved) ∧
    (∀ (ts : CesiumTerrainProviderState) (key : String) (pid : Nat),
      alookup key ts.tilePromiseCache = some pid →
      alookup key (terrainComplete ts key none).tilePromiseCache = none ∧
      alookup key (terrainComplete ts key (some 0)).tilePromiseCache = none ∧
      (pid, (none : Option Nat)) ∈ (terrainComplete ts key none).resolved) := by
  constructor
  · intro s key task hf
    refine ⟨?_, ?_, ?_⟩
    · unfold completeSuccess
      rw [hf]
      dsimp only
      rw [processQueue_texturePromises]
      dsimp only
      exact alookup_eraseKey_self _ _
    · unfold completeFailure
      rw [hf]
      dsimp only
      rw [processQueue_texturePromises]
      dsimp only
      exact alookup_eraseKey_self _ _
    · unfold completeFailure
      rw [hf]
      dsimp only
      rw [processQueue_resolved]
      dsimp only
      exact List.mem_append_right _ (List.mem_singleton_self _)
  · intro ts key pid h
    unfold terrainComplete
    rw [h]
    exact ⟨alookup_eraseKey_self _ _, alookup_eraseKey_self _ _,
      List.mem_append_right _ (List.mem_singleton_self _)⟩

/-- Witness for `requestCompletion_cleanup` on the in-flight load of tile
(3, 4, 3) and a pending terrain promise. -/
theorem requestCompletion_cleanup_witness :
    ((run [TMEvent.load "3/4/3"]).inFlight.find? (fun t => t.key == "3/4/3") =
      some ⟨"3/4/3", 0⟩) ∧
    alookup "3/4/3" (completeSuccess (run [TMEvent.load "3/4/3"]) "3/4/3").texturePromises
      = none ∧
    alookup "3/4/3" (completeFailure (run [TMEvent.load "3/4/3"]) "3/4/3").texturePromises
      = none ∧
    ((0 : Nat), (none : Option Nat)) ∈
      (completeFailure (run [TMEvent.load "3/4/3"]) "3/4/3").resolved ∧
    alookup "3/4/3"
      (terrainComplete
        { tilePromiseCache := [("3/4/3", 5)], issuedRequests := ["3/4/3"], resolved := [],
              nextPid := 6 } "3/4/3" none).tilePromiseCache = none ∧
    ((5 : Nat), (none : Option Nat)) ∈
      (terrainComplete
        { tilePromiseCache := [("3/4/3", 5)], issuedRequests := ["3/4/3"], resolved := [],
              nextPid := 6 } "3/4/3" none).resolved :=
  ⟨by decide,
    (requestCompletion_cleanup.1 (run [TMEvent.load "3/4/3"]) "3/4/3" ⟨"3/4/3", 0⟩
      (by decide)).1,
    (requestCompletion_cleanup.1 (run [TMEvent.load "3/4/3"]) "3/4/3" ⟨"3/4/3", 0⟩
      (by decide)).2.1,
    (requestCompletion_cleanup.1 (run [TMEvent.load "3/4/3"]) "3/4/3" ⟨"3/4/3", 0⟩
      (by decide)).2.2,
    (requestCompletion_cleanup.2
      { tilePromiseCache := [("3/4/3", 5)], issuedRequests := ["3/4/3"], resolved := [],
            nextPid := 6 } "3/4/3" 5 (by decide)).1,
    (requestCompletion_cleanup.2
      { tilePromiseCache := [("3/4/3", 5)], issuedRequests := ["3/4/3"], resolved := [],
            nextPid := 6 } "3/4/3" 5 (by decide)).2.2⟩

/-- C7: in every reachable state of the pipeline the number of started but
uncompleted texture loads is `activeTileLoads ≤ MAX_CONCURRENT_TILE_LOADS`
(= 12), and `processTileLoadQueue` starts queued tasks strictly from the
front of `pendingTileLoads` in FIFO order: it removes some prefix of the
queue and appends exactly that prefix, in order, to the in-flight set. -/
theorem tileLoadConcurrency_spec :
    (∀ evs : List TMEvent,
      (run evs).activeTileLoads ≤ MAX_CONCURRENT_TILE_LOADS ∧
      (run evs).inFlight.length = (run evs).activeTileLoads) ∧
    (∀ s : TMState, ∃ k,
      (processTileLoadQueue s).pendingTileLoads = s.pendingTileLoads.drop k ∧
      (processTileLoadQueue s).inFlight = s.inFlight ++ s.pendingTileLoads.take k) := by
  constructor
  · intro evs
    obtain ⟨g1, g2, _, _⟩ := run_good evs
    exact ⟨g1, g2⟩
  · exact processQueue_fifo

/-- C10: in every reachable state `tileSuccessCount ≤ tileRequestCount`,
and both counters are monotonically non-decreasing across every event
(request bumped once when a dequeued task starts, success only inside that
request's success callback). -/
theorem tileCounters_spec :
    (∀ evs : List TMEvent,
      (run evs).tileSuccessCount ≤ (run evs).tileRequestCount) ∧
    (∀ (evs : List TMEvent) (e : TMEvent),
      (run evs).tileRequestCount ≤ (run (evs ++ [e])).tileRequestCount ∧
      (run evs).tileSuccessCount ≤ (run (evs ++ [e])).tileSuccessCount) := by
  constructor
  · intro evs
    obtain ⟨_, _, g3, _⟩ := run_good evs
    omega
  · intro evs e
    rw [run_append_single]
    exact step_counters_mono e (run evs)

end ThreeEarth
